import Mathlib

deriving instance DecidableEq for Except

/-!
Verification development for the transaction-construction layer
(`app/src/transactions/create_transactions.rs`) and the block-ingestion
worker (`node/src/block_saver.rs`) of the Bitcoin node repository.

Bytes are modelled as `Nat`, byte strings as `List Nat`, `i64` amounts as
`Int`.  A Rust panic is modelled as `Option.none`.  External crates
(secp256k1, bitcoin_hashes, bech32) are abstracted as a record of
collaborator functions; the bs58 crate is modelled concretely, since the
behaviour of base58 decoding decides several claims.
-/

namespace BitcoinNode

/-- The base58 alphabet `123456789ABCDEFGHJKLMNPQRSTUVWXYZabcdefghijkmnopqrstuvwxyz`
of the external bs58 crate, as ASCII codes. -/
def b58Alphabet : List Nat :=
  [49, 50, 51, 52, 53, 54, 55, 56, 57,
   65, 66, 67, 68, 69, 70, 71, 72,
   74, 75, 76, 77, 78,
   80, 81, 82, 83, 84, 85, 86, 87, 88, 89, 90,
   97, 98, 99, 100, 101, 102, 103, 104, 105, 106, 107,
   109, 110, 111, 112, 113, 114, 115, 116, 117, 118, 119, 120, 121, 122]

/-- Big-endian base-256 digits of a natural number (no leading zero bytes).
The fuel argument only bounds the recursion depth; `n` itself is always
enough fuel since the argument shrinks by a factor of 256 each step. -/
def natToBytesBEAux : Nat → Nat → List Nat
  | _, 0 => []
  | 0, _ => []
  | fuel + 1, n => natToBytesBEAux fuel (n / 256) ++ [n % 256]

/-- Big-endian base-256 digits of a natural number. -/
def natToBytesBE (n : Nat) : List Nat :=
  natToBytesBEAux n n

/-- Big-endian base-58 digits of a natural number (no leading zero digits),
with the same fuel device. -/
def natToB58DigitsAux : Nat → Nat → List Nat
  | _, 0 => []
  | 0, _ => []
  | fuel + 1, n => natToB58DigitsAux fuel (n / 58) ++ [n % 58]

/-- Big-endian base-58 digits of a natural number. -/
def natToB58Digits (n : Nat) : List Nat :=
  natToB58DigitsAux n n

/-- Value of one base58 character, `none` for a character outside the alphabet
(the bs58 crate rejects the whole input in that case). -/
def b58DigitOf (c : Nat) : Option Nat :=
  b58Alphabet.findIdx? (fun x => x == c)

/-- Model of `bs58::decode(input).into_vec()`: each leading `1` becomes a zero
byte and the remaining digits are read as one big base-58 number whose
big-endian base-256 digits follow; an input containing a character outside the
alphabet fails. -/
def bs58_decode (input : List Nat) : Option (List Nat) := do
  let digits ← input.mapM b58DigitOf
  let zeros := (digits.takeWhile (fun d => d == 0)).length
  let n := digits.foldl (fun acc d => acc * 58 + d) 0
  pure (List.replicate zeros 0 ++ natToBytesBE n)

/-- Model of `bs58::encode(input).into_vec()`: each leading zero byte becomes
the character `1` (ASCII 49) and the rest is written in base 58. -/
def bs58_encode (input : List Nat) : List Nat :=
  let zeros := (input.takeWhile (fun b => b == 0)).length
  let n := input.foldl (fun acc b => acc * 256 + b) 0
  List.replicate zeros 49 ++ (natToB58Digits n).map (fun d => b58Alphabet.getD d 0)

/-- Modelled from the spec: `TxOut` (bitcoin crate, not under src/) — a
transaction output carries a signed satoshi amount and a locking script. -/
structure TxOut where
  value : Int
  pk_script : List Nat
deriving Repr, DecidableEq

/-- Modelled from the spec: `TxOut::new(value, pk_script)`. -/
def TxOut.new (value : Int) (pk_script : List Nat) : TxOut :=
  ⟨value, pk_script⟩

/-- Modelled from the spec: `TxOut::get_value`. -/
def TxOut.get_value (t : TxOut) : Int := t.value

/-- Modelled from the spec: `TxIn` (bitcoin crate, not under src/) — a
transaction input references a previous outpoint (txid + index), carries an
unlocking script and a sequence number. -/
structure TxIn where
  prev_tx : List Nat
  prev_index : Nat
  signature_script : List Nat
  sequence : Nat
deriving Repr, DecidableEq

/-- Modelled from the spec: `TxIn::new(prev_tx, prev_index, signature_script, sequence)`. -/
def TxIn.new (prev_tx : List Nat) (prev_index : Nat) (signature_script : List Nat)
    (sequence : Nat) : TxIn :=
  ⟨prev_tx, prev_index, signature_script, sequence⟩

/-- Modelled from the spec: `Script` (bitcoin crate, not under src/) — a list
of script commands, each a byte string. -/
structure Script where
  commands : List (List Nat)
deriving Repr, DecidableEq

/-- Modelled from the spec: `Script::new` takes an optional command list,
`None` meaning an empty script. -/
def Script.new (cmds : Option (List (List Nat))) : Script :=
  ⟨cmds.getD []⟩

/-- Modelled from the spec and the repository script tests: `Script::as_bytes`
emits a single-byte command (an opcode) as that raw byte and a data command
with a one-byte length prefix, so the legacy template over a 20-byte hash
serializes to `76 a9 14 <hash> 88 ac`. -/
def Script.as_bytes (s : Script) : List Nat :=
  (s.commands.map (fun c => if c.length = 1 then c else c.length :: c)).flatten

/-- Modelled from the spec: `Transaction` (bitcoin crate, not under src/) —
version, ordered inputs, ordered outputs, locktime, plus a witness stack list
for segwit signing. -/
structure Transaction where
  version : Int
  tx_in_list : List TxIn
  tx_out_list : List TxOut
  locktime : Nat
  witness : List (List (List Nat))
deriving Repr, DecidableEq

/-- Modelled from the spec: `Transaction::new(version, tx_in_list, tx_out_list, locktime)`
builds an unsigned transaction with no witness data. -/
def Transaction.new (version : Int) (tx_in_list : List TxIn) (tx_out_list : List TxOut)
    (locktime : Nat) : Transaction :=
  ⟨version, tx_in_list, tx_out_list, locktime, []⟩

/-- Modelled from the spec: `Transaction::get_tx_in_list`. -/
def Transaction.get_tx_in_list (t : Transaction) : List TxIn := t.tx_in_list

/-- Modelled from the spec: `Transaction::set_signature(i, script)` installs an
unlocking script on input `i`, leaving every other field unchanged. -/
def Transaction.set_signature (t : Transaction) (i : Nat) (s : List Nat) : Transaction :=
  { t with tx_in_list :=
      t.tx_in_list.mapIdx (fun j txin =>
        if j = i then { txin with signature_script := s } else txin) }

/-- Modelled from the spec: `Transaction::set_witness(stack)` appends one
witness stack, leaving every other field unchanged. -/
def Transaction.set_witness (t : Transaction) (w : List (List Nat)) : Transaction :=
  { t with witness := t.witness ++ [w] }

/-- Modelled from the spec: the external cryptographic and bech32
collaborators used by `create_transactions.rs` (secp256k1, bitcoin_hashes,
bech32 crates). `witnessFromAddress` is
`WitnessProgram::from_address("tb", utf8_lossy(address))` composed with the
infallible `to_scriptpubkey`, so it is `some` exactly when `from_address`
returns `Ok`. `witnessToAddress` is
`WitnessProgram { version: 0, program }.to_address("tb").unwrap()` as bytes.
`secretKeyValid` is `SecretKey::from_slice(..).is_ok()`; `pubkeyFromSecret`
is the serialized compressed public key of the secret key; `signEcdsaDer`
maps a message and a secret key to a DER signature. The two signature-hash
functions are the `Transaction` methods of the bitcoin crate. -/
structure CryptoOps where
  hash160 : List Nat → List Nat
  sha256 : List Nat → List Nat
  sha256d : List Nat → List Nat
  witnessFromAddress : List Nat → Option (List Nat)
  witnessToAddress : List Nat → List Nat
  secretKeyValid : List Nat → Bool
  pubkeyFromSecret : List Nat → List Nat
  signEcdsaDer : List Nat → List Nat → List Nat
  p2pkhSignatureHash : Transaction → Nat → List Nat → List Nat
  p2wpkhSignatureHash : Transaction → Nat → List Nat → List Int → List Nat

/-- Model of `is_string_bech32`: true when witness-program decoding succeeds. -/
def is_string_bech32 (ops : CryptoOps) (address : List Nat) : Bool :=
  (ops.witnessFromAddress address).isSome

/-- Model of `is_array_bech32` (the utf8-lossy conversion is folded into the
collaborator). -/
def is_array_bech32 (ops : CryptoOps) (address : List Nat) : Bool :=
  is_string_bech32 ops address

/-- Model of `address_from_pubkey`: HASH160 the key; for segwit wrap the hash
as a version-0 witness program and bech32-encode, otherwise prepend the
testnet version byte `0x6f`, append the first four bytes of the double-SHA256
checksum and base58-encode. -/
def address_from_pubkey (ops : CryptoOps) (public_key : List Nat) (p2wpkh : Bool) :
    List Nat :=
  let h160 := ops.hash160 public_key
  if p2wpkh then
    ops.witnessToAddress h160
  else
    let version_byte : List Nat := [0x6f]
    let double_hash := ops.sha256d (version_byte ++ h160)
    let checksum := double_hash.take 4
    bs58_encode (version_byte ++ h160 ++ checksum)

/-- Model of `decode_base58`: base58-decode and return the slice
`combined[1 .. combined.len() - 4]`; a failed base58 decode yields the empty
vector, while a decoded length below 5 makes the slice bounds invalid, which
panics in Rust and is `none` here. -/
def decode_base58 (address : List Nat) : Option (List Nat) :=
  match bs58_decode address with
  | some combined =>
      if 5 ≤ combined.length then some ((combined.drop 1).take (combined.length - 5))
      else none
  | none => some []

/-- Model of `pk_script_from_address`: for segwit, try witness-program
decoding and on success return its scriptpubkey; otherwise (and always for
legacy) base58-decode the address and build the legacy template
`OP_DUP OP_HASH160 <hash> OP_EQUALVERIFY OP_CHECKSIG`. -/
def pk_script_from_address (ops : CryptoOps) (address : List Nat) (p2wpkh : Bool) :
    Option (List Nat) :=
  match (if p2wpkh then ops.witnessFromAddress address else none) with
  | some spk => some spk
  | none =>
      match decode_base58 address with
      | some h160 =>
          some (Script.as_bytes (Script.new (some [[0x76], [0xa9], h160, [0x88], [0xac]])))
      | none => none

/-- Model of `pk_script_from_pubkey`: derive the address from the key, then
the locking script from the address. -/
def pk_script_from_pubkey (ops : CryptoOps) (public_key : List Nat) (p2wpkh : Bool) :
    Option (List Nat) :=
  pk_script_from_address ops (address_from_pubkey ops public_key p2wpkh) p2wpkh

/-- Model of the `TransactionCreateError` enum (including the source's
spelling of `InsufficientFounds`). -/
inductive TransactionCreateError where
  | InsufficientFounds
  | PrivateKey
deriving Repr, DecidableEq

/-- Loop of `create_txout_list`: one output per target, its script derived
with auto-detected address family, accumulating the total amount (seeded with
the fee); a panic in script derivation propagates. -/
def create_txout_list_go (ops : CryptoOps) :
    List (List Nat × Int) → Int → List TxOut → Option (List TxOut × Int)
  | [], total_amount, acc => some (acc, total_amount)
  | (address, amount) :: rest, total_amount, acc =>
      match pk_script_from_address ops address (is_array_bech32 ops address) with
      | none => none
      | some script =>
          create_txout_list_go ops rest (total_amount + amount)
            (acc ++ [TxOut.new amount script])

/-- Model of `create_txout_list`. -/
def create_txout_list (ops : CryptoOps) (targets : List (List Nat × Int)) (fee : Int) :
    Option (List TxOut × Int) :=
  create_txout_list_go ops targets fee []

/-- Loop of `create_txin_list`: while the accumulated value is below the
required total, pop the next candidate, turn it into an input with empty
script and sequence `0xffffffff`, and record its value; exhaustion fails with
`InsufficientFounds`.  The source pops from the end of the candidate vector,
which is exactly a front-to-back walk of the reversed pool, so this loop
receives the reversed pool and recurses on it structurally.  Returns the
input list, the recorded values and the final accumulated value. -/
def create_txin_list_go :
    List (List Nat × Nat × TxOut) → Int → Int → List TxIn → List Int →
      Except TransactionCreateError (List TxIn × List Int × Int)
  | rev_utxo, total_amount, acum_amount, txin_list, amount_list =>
    if acum_amount < total_amount then
      match rev_utxo with
      | [] => .error .InsufficientFounds
      | u :: rest =>
          create_txin_list_go rest total_amount
            (acum_amount + u.2.2.get_value)
            (txin_list ++ [TxIn.new u.1 u.2.1 [] 0xffffffff])
            (amount_list ++ [u.2.2.get_value])
    else
      .ok (txin_list, amount_list, acum_amount)

/-- Model of `create_txin_list`: run the selection loop (which pops from the
end of the pool, hence walks `utxo.reverse`) from an empty state and append
the change sentinel `acum_amount - total_amount` to the value list. -/
def create_txin_list (utxo : List (List Nat × Nat × TxOut)) (total_amount : Int) :
    Except TransactionCreateError (List TxIn × List Int) :=
  match create_txin_list_go utxo.reverse total_amount 0 [] [] with
  | .error e => .error e
  | .ok (txin_list, amount_list, acum_amount) =>
      .ok (txin_list, amount_list ++ [acum_amount - total_amount])

/-- One iteration of the signing loop of `sign_transaction` at input `i`:
compute the legacy or BIP143 signature hash of the current transaction, hash
it into a message, sign, append the `0x01` sighash byte, and install
`[signature, pubkey]` as witness stack (segwit) or unlocking script (legacy). -/
def sign_transaction_step (ops : CryptoOps) (private_key pk_script : List Nat)
    (p2wpkh : Bool) (amount_list : List Int) (t : Transaction) (i : Nat) : Transaction :=
  let signature_hash :=
    if p2wpkh then ops.p2wpkhSignatureHash t i pk_script amount_list
    else ops.p2pkhSignatureHash t i pk_script
  let message := ops.sha256 signature_hash
  let signature := ops.signEcdsaDer message private_key ++ [0x01]
  let pubkey := ops.pubkeyFromSecret private_key
  let script := [signature, pubkey]
  if p2wpkh then t.set_witness script
  else t.set_signature i (Script.new (some script)).as_bytes

/-- Model of `sign_transaction`: iterate the signing step over every input
index in order. -/
def sign_transaction (ops : CryptoOps) (transaction : Transaction)
    (private_key : List Nat) (pk_script : List Nat) (p2wpkh : Bool)
    (amount_list : List Int) : Transaction :=
  (List.range transaction.get_tx_in_list.length).foldl
    (sign_transaction_step ops private_key pk_script p2wpkh amount_list) transaction

/-- Model of `create_transaction`: validate the private key first (failing
with `PrivateKey`), derive the sender's locking script, build the outputs and
the required total, select inputs (propagating `InsufficientFounds`), append
the change output for the last recorded value, assemble the version-1
locktime-0 transaction and sign every input.  The outer `Option` models a
Rust panic inside script derivation. -/
def create_transaction (ops : CryptoOps) (targets : List (List Nat × Int))
    (utxo : List (List Nat × Nat × TxOut)) (private_key : List Nat) (fee : Int)
    (p2wpkh : Bool) : Option (Except TransactionCreateError Transaction) :=
  if ops.secretKeyValid private_key then
    let public_key := ops.pubkeyFromSecret private_key
    match pk_script_from_pubkey ops public_key p2wpkh with
    | none => none
    | some pk_script =>
        match create_txout_list ops targets fee with
        | none => none
        | some (txout_list, total_amount) =>
            match create_txin_list utxo total_amount with
            | .error e => some (.error e)
            | .ok (txin_list, amount_list) =>
                let txout_list :=
                  match amount_list.getLast? with
                  | some change => txout_list ++ [TxOut.new change pk_script]
                  | none => txout_list
                let transaction := Transaction.new 1 txin_list txout_list 0
                some (.ok (sign_transaction ops transaction private_key pk_script
                  p2wpkh amount_list))
  else
    some (.error .PrivateKey)

/-!  Ingestion pipeline (`node/src/block_saver.rs`).  The channel is modelled
as the finite list of blocks delivered before the producer side closes; lock
acquisition results are an oracle, one pair (UTXO lock, ledger lock) per
iteration; the block ledger is the list of its blocks, with `add` appending;
the UTXO index is any type with an `update` function, since `UnspentTx` lives
outside src/.  The per-iteration event trace records the order of lock
acquisitions, mutations and releases; the progress print is omitted as pure
observability. -/

/-- Events emitted by one iteration of the ingestion worker, in program
order. -/
inductive IngestEvent (Block : Type) where
  | lockUtxo
  | lockChain
  | updateUtxo (b : Block)
  | addBlock (b : Block)
  | releaseChain
  | releaseUtxo
deriving Repr, DecidableEq

/-- Model of `download_blocks`: while the channel still holds a block, try
the UTXO lock and then the ledger lock; only with both held apply the block
to the UTXO index and append it to the ledger; a failed acquisition skips
that block entirely.  Returns the final UTXO index, the final ledger and the
event trace. -/
def download_blocks {Block U : Type} (update : U → Block → U) :
    List (Bool × Bool) → List Block → U → List Block →
      U × List Block × List (IngestEvent Block)
  | _, [], utxo, blockchain => (utxo, blockchain, [])
  | locks, b :: rest, utxo, blockchain =>
      if (locks.headD (true, true)).1 then
        if (locks.headD (true, true)).2 then
          let r := download_blocks update locks.tail rest (update utxo b)
            (blockchain ++ [b])
          (r.1, r.2.1,
            [.lockUtxo, .lockChain, .updateUtxo b, .addBlock b,
             .releaseChain, .releaseUtxo] ++ r.2.2)
        else
          let r := download_blocks update locks.tail rest utxo blockchain
          (r.1, r.2.1, [.lockUtxo, .releaseUtxo] ++ r.2.2)
      else
        download_blocks update locks.tail rest utxo blockchain

/-- Blocks whose iteration acquired both locks, in arrival order: exactly the
blocks the worker applies to both shared structures. -/
def applied_blocks {Block : Type} : List (Bool × Bool) → List Block → List Block
  | _, [] => []
  | locks, b :: rest =>
      (if (locks.headD (true, true)).1 && (locks.headD (true, true)).2
        then [b] else []) ++
        applied_blocks locks.tail rest

/-!  Spec-side helpers.  -/

/-- Sum of the values of a candidate pool. -/
def utxoSum (utxo : List (List Nat × Nat × TxOut)) : Int :=
  (utxo.map (fun u => u.2.2.value)).sum

/-- Sum of the target amounts. -/
def targetsSum (targets : List (List Nat × Int)) : Int :=
  (targets.map (fun t => t.2)).sum

/-- Decidable data-model invariant: every candidate output carries a
non-negative satoshi amount (spec §3, TransactionOutput). -/
def allValuesNonNeg (utxo : List (List Nat × Nat × TxOut)) : Bool :=
  utxo.all (fun u => 0 ≤ u.2.2.value)

/-- True exactly when a `create_transaction` run returned a transaction. -/
def returnsTransaction (r : Option (Except TransactionCreateError Transaction)) : Bool :=
  match r with
  | some (.ok _) => true
  | _ => false

/-- Concrete collaborator instance used by the witnesses: a secret key is
valid when it has 32 bytes, hashes are constant, bech32 decoding always
fails (legacy-only world) and signing is a fixed byte. -/
def testOps : CryptoOps where
  hash160 := fun _ => List.replicate 20 0
  sha256 := fun l => l
  sha256d := fun _ => List.replicate 32 0
  witnessFromAddress := fun _ => none
  witnessToAddress := fun h => h
  secretKeyValid := fun k => k.length == 32
  pubkeyFromSecret := fun k => 2 :: k
  signEcdsaDer := fun _ _ => [48]
  p2pkhSignatureHash := fun _ _ _ => []
  p2wpkhSignatureHash := fun _ _ _ _ => []

/-!  Lemmas about the selection loop.  -/

/-- Selected-value view: the values of the first `k` candidates taken from
the back of the pool. -/
def selValues (utxo : List (List Nat × Nat × TxOut)) (k : Nat) : List Int :=
  (utxo.reverse.take k).map (fun u => u.2.2.value)

/-- Input view of the same selection. -/
def selInputs (utxo : List (List Nat × Nat × TxOut)) (k : Nat) : List TxIn :=
  (utxo.reverse.take k).map (fun u => TxIn.new u.1 u.2.1 [] 0xffffffff)

lemma create_txin_list_go_nil (total acum : Int) (txins : List TxIn)
    (amounts : List Int) :
    create_txin_list_go [] total acum txins amounts =
      if acum < total then .error .InsufficientFounds
      else .ok (txins, amounts, acum) := by
  rw [create_txin_list_go]

lemma create_txin_list_go_cons (u : List Nat × Nat × TxOut)
    (rest : List (List Nat × Nat × TxOut)) (total acum : Int) (txins : List TxIn)
    (amounts : List Int) :
    create_txin_list_go (u :: rest) total acum txins amounts =
      if acum < total then
        create_txin_list_go rest total (acum + u.2.2.get_value)
          (txins ++ [TxIn.new u.1 u.2.1 [] 0xffffffff])
          (amounts ++ [u.2.2.get_value])
      else .ok (txins, amounts, acum) := by
  rw [create_txin_list_go]

/-- Shape of every successful run of the selection loop over the walked list
`rev` (the reversed pool): some prefix of length `k` is consumed, the inputs
and recorded values are appended in that order, the final accumulator is the
starting one plus the consumed values, it meets the required total, and no
strictly shorter prefix does. -/
lemma create_txin_list_go_ok_char :
    ∀ (rev : List (List Nat × Nat × TxOut)) (total acum : Int)
      (txins txins2 : List TxIn) (amounts amounts2 : List Int) (acum2 : Int),
      create_txin_list_go rev total acum txins amounts = .ok (txins2, amounts2, acum2) →
      ∃ k, k ≤ rev.length ∧
        txins2 = txins ++ (rev.take k).map (fun u => TxIn.new u.1 u.2.1 [] 0xffffffff) ∧
        amounts2 = amounts ++ (rev.take k).map (fun u => u.2.2.value) ∧
        acum2 = acum + ((rev.take k).map (fun u => u.2.2.value)).sum ∧
        total ≤ acum2 ∧
        ∀ j, j < k → acum + ((rev.take j).map (fun u => u.2.2.value)).sum < total := by
  intro rev
  induction rev with
  | nil =>
      intro total acum txins txins2 amounts amounts2 acum2 h
      rw [create_txin_list_go_nil] at h
      split at h
      · simp at h
      · rename_i hge
        simp only [Except.ok.injEq, Prod.mk.injEq] at h
        obtain ⟨h1, h2, h3⟩ := h
        subst h1 h2 h3
        exact ⟨0, by simp, by simp, by simp, by simp, by omega, by omega⟩
  | cons u rest ih =>
      intro total acum txins txins2 amounts amounts2 acum2 h
      rw [create_txin_list_go_cons] at h
      split at h
      · rename_i hlt
        obtain ⟨k, hk, hti, ham, hac, hle, hmin⟩ := ih total (acum + u.2.2.get_value)
          (txins ++ [TxIn.new u.1 u.2.1 [] 0xffffffff]) txins2
          (amounts ++ [u.2.2.get_value]) amounts2 acum2 h
        refine ⟨k + 1, by simpa using Nat.succ_le_succ hk, ?_, ?_, ?_, hle, ?_⟩
        · rw [hti]
          simp [List.take_succ_cons]
        · rw [ham]
          simp [List.take_succ_cons, TxOut.get_value]
        · rw [hac]
          simp [List.take_succ_cons, TxOut.get_value]
          omega
        · intro j hj
          match j with
          | 0 => simpa using hlt
          | j + 1 =>
              have hj2 : j < k := by omega
              have hstep := hmin j hj2
              simp [List.take_succ_cons, TxOut.get_value] at hstep ⊢
              omega
      · rename_i hge
        simp only [Except.ok.injEq, Prod.mk.injEq] at h
        obtain ⟨h1, h2, h3⟩ := h
        subst h1 h2 h3
        exact ⟨0, by simp, by simp, by simp, by simp, by omega, by omega⟩

/-- The selection loop succeeds whenever the starting accumulator plus the
whole walked list covers the required total. -/
lemma create_txin_list_go_success :
    ∀ (rev : List (List Nat × Nat × TxOut)) (total acum : Int)
      (txins : List TxIn) (amounts : List Int),
      total ≤ acum + (rev.map (fun u => u.2.2.value)).sum →
      ∃ r, create_txin_list_go rev total acum txins amounts = .ok r := by
  intro rev
  induction rev with
  | nil =>
      intro total acum txins amounts hcov
      rw [create_txin_list_go_nil, if_neg (by simp at hcov; omega)]
      exact ⟨_, rfl⟩
  | cons u rest ih =>
      intro total acum txins amounts hcov
      rw [create_txin_list_go_cons]
      split
      · refine ih total (acum + u.2.2.get_value) _ _ ?_
        simp [TxOut.get_value] at hcov ⊢
        omega
      · exact ⟨_, rfl⟩

/-- The selection loop fails with `InsufficientFounds` when the walked list
(all values non-negative, per the data model) cannot reach the required
total. -/
lemma create_txin_list_go_fail :
    ∀ (rev : List (List Nat × Nat × TxOut)),
      (∀ u ∈ rev, (0 : Int) ≤ u.2.2.value) →
      ∀ (total acum : Int) (txins : List TxIn) (amounts : List Int),
        acum + (rev.map (fun u => u.2.2.value)).sum < total →
        create_txin_list_go rev total acum txins amounts =
          .error .InsufficientFounds := by
  intro rev
  induction rev with
  | nil =>
      intro _ total acum txins amounts hlt
      rw [create_txin_list_go_nil, if_pos (by simp at hlt; omega)]
  | cons u rest ih =>
      intro hnn total acum txins amounts hlt
      have hrest : (0 : Int) ≤ (rest.map (fun u => u.2.2.value)).sum := by
        refine List.sum_nonneg ?_
        intro x hx
        obtain ⟨y, hy, rfl⟩ := List.mem_map.mp hx
        exact hnn y (by simp [hy])
      have hu : (0 : Int) ≤ u.2.2.value := hnn u (by simp)
      rw [create_txin_list_go_cons, if_pos (by simp at hlt; omega)]
      refine ih (fun v hv => hnn v (by simp [hv])) total _ _ _ ?_
      simp [TxOut.get_value] at hlt ⊢
      omega

/-- Characterization of every successful `create_txin_list` run: the inputs
are the first `k` pops from the back of the pool in selection order, the
value list is their values followed by the change sentinel, the selection
covers the required total, and no shorter selection does. -/
lemma create_txin_list_ok_char (utxo : List (List Nat × Nat × TxOut)) (total : Int)
    (txins : List TxIn) (amounts : List Int)
    (h : create_txin_list utxo total = .ok (txins, amounts)) :
    ∃ k, k ≤ utxo.length ∧
      txins = selInputs utxo k ∧
      amounts = selValues utxo k ++ [(selValues utxo k).sum - total] ∧
      total ≤ (selValues utxo k).sum ∧
      ∀ j, j < k → (selValues utxo j).sum < total := by
  unfold create_txin_list at h
  cases hgo : create_txin_list_go utxo.reverse total 0 [] [] with
  | error e => rw [hgo] at h; simp at h
  | ok r =>
      obtain ⟨ti, am, ac⟩ := r
      rw [hgo] at h
      simp only [Except.ok.injEq, Prod.mk.injEq] at h
      obtain ⟨h1, h2⟩ := h
      obtain ⟨k, hk, hti, ham, hac, hle, hmin⟩ :=
        create_txin_list_go_ok_char _ _ _ _ _ _ _ _ hgo
      simp only [List.nil_append] at hti ham
      simp only [zero_add] at hac hmin
      refine ⟨k, by simpa using hk, ?_, ?_, ?_, ?_⟩
      · rw [← h1, hti]; rfl
      · rw [← h2, ham, hac]; rfl
      · show total ≤ ((utxo.reverse.take k).map (fun u => u.2.2.value)).sum
        exact hac ▸ hle
      · intro j hj
        simpa [selValues] using hmin j hj

/-- `create_txin_list` succeeds whenever the pool covers the required
total. -/
lemma create_txin_list_success (utxo : List (List Nat × Nat × TxOut)) (total : Int)
    (hcov : total ≤ utxoSum utxo) :
    ∃ txins amounts, create_txin_list utxo total = .ok (txins, amounts) := by
  have hrev : total ≤ 0 + (utxo.reverse.map (fun u => u.2.2.value)).sum := by
    rw [List.map_reverse, List.sum_reverse]
    simpa [utxoSum] using hcov
  obtain ⟨r, hr⟩ := create_txin_list_go_success utxo.reverse total 0 [] [] hrev
  obtain ⟨ti, am, ac⟩ := r
  refine ⟨ti, am ++ [ac - total], ?_⟩
  unfold create_txin_list
  rw [hr]

/-- `create_txin_list` fails with `InsufficientFounds` when the pool (with
non-negative values, per the data model) cannot reach the required total. -/
lemma create_txin_list_insufficient (utxo : List (List Nat × Nat × TxOut)) (total : Int)
    (hnn : allValuesNonNeg utxo = true) (hlt : utxoSum utxo < total) :
    create_txin_list utxo total = .error .InsufficientFounds := by
  have hnn2 : ∀ u ∈ utxo.reverse, (0 : Int) ≤ u.2.2.value := by
    intro u hu
    rw [List.mem_reverse] at hu
    simpa using (List.all_eq_true.mp hnn) u hu
  have hsum : 0 + (utxo.reverse.map (fun u => u.2.2.value)).sum < total := by
    rw [List.map_reverse, List.sum_reverse]
    simpa [utxoSum] using hlt
  have hgo := create_txin_list_go_fail utxo.reverse hnn2 total 0 [] [] hsum
  unfold create_txin_list
  rw [hgo]

/-- The running total of the output builder is the seed plus the sum of the
target amounts. -/
lemma create_txout_list_go_total (ops : CryptoOps) :
    ∀ (targets : List (List Nat × Int)) (total : Int) (acc outs : List TxOut) (t : Int),
      create_txout_list_go ops targets total acc = some (outs, t) →
      t = total + targetsSum targets := by
  intro targets
  induction targets with
  | nil =>
      intro total acc outs t h
      simp only [create_txout_list_go, Option.some.injEq, Prod.mk.injEq] at h
      simp [targetsSum, ← h.2]
  | cons p rest ih =>
      intro total acc outs t h
      obtain ⟨address, amount⟩ := p
      simp only [create_txout_list_go] at h
      cases hs : pk_script_from_address ops address (is_array_bech32 ops address) with
      | none => rw [hs] at h; simp at h
      | some script =>
          rw [hs] at h
          have := ih (total + amount) _ outs t h
          simp [targetsSum] at this ⊢
          omega

/-- The total of `create_txout_list` is the fee plus the target amounts. -/
lemma create_txout_list_total (ops : CryptoOps) (targets : List (List Nat × Int))
    (fee : Int) (outs : List TxOut) (t : Int)
    (h : create_txout_list ops targets fee = some (outs, t)) :
    t = fee + targetsSum targets :=
  create_txout_list_go_total ops targets fee [] outs t h

/-- One signing step never touches the output list. -/
lemma sign_transaction_step_tx_out (ops : CryptoOps) (sk pk : List Nat) (w : Bool)
    (al : List Int) (t : Transaction) (i : Nat) :
    (sign_transaction_step ops sk pk w al t i).tx_out_list = t.tx_out_list := by
  cases w <;>
    simp [sign_transaction_step, Transaction.set_witness, Transaction.set_signature]

/-- Signing never touches the output list. -/
lemma sign_transaction_tx_out (ops : CryptoOps) (t : Transaction) (sk pk : List Nat)
    (w : Bool) (al : List Int) :
    (sign_transaction ops t sk pk w al).tx_out_list = t.tx_out_list := by
  unfold sign_transaction
  generalize List.range t.get_tx_in_list.length = l
  induction l generalizing t with
  | nil => rfl
  | cons i rest ih =>
      rw [List.foldl_cons, ih, sign_transaction_step_tx_out]

/-!  Claims.  -/

/-- C1: for every candidate pool and every required total the pool can cover,
`create_txin_list` pops outputs from the end of the pool accumulating their
values until the accumulated value first reaches the required total; it
returns exactly those outputs as inputs in selection order — never more than
necessary to first reach the total — and the value list holds each selected
value followed by the change sentinel `accumulated - required`. -/
theorem c1_selector_exactness (utxo : List (List Nat × Nat × TxOut)) (total : Int)
    (hcover : total ≤ utxoSum utxo) :
    ∃ k, k ≤ utxo.length ∧
      create_txin_list utxo total =
        .ok (selInputs utxo k,
          selValues utxo k ++ [(selValues utxo k).sum - total]) ∧
      total ≤ (selValues utxo k).sum ∧
      ∀ j, j < k → (selValues utxo j).sum < total := by
  obtain ⟨txins, amounts, hok⟩ := create_txin_list_success utxo total hcover
  obtain ⟨k, hk, hti, ham, hle, hmin⟩ := create_txin_list_ok_char utxo total txins amounts hok
  exact ⟨k, hk, by rw [← hti, ← ham]; exact hok, hle, hmin⟩

/-- Witness for C1 at a concrete pool and required total 4: the pool covers
4, and the selector takes exactly the last output (value 5) with change 1. -/
theorem c1_selector_exactness_witness :
    (4 : Int) ≤ utxoSum [([1], 0, TxOut.new 3 []), ([2], 1, TxOut.new 5 [])] ∧
    (∃ k, k ≤ ([([1], 0, TxOut.new 3 []), ([2], 1, TxOut.new 5 [])] :
        List (List Nat × Nat × TxOut)).length ∧
      create_txin_list [([1], 0, TxOut.new 3 []), ([2], 1, TxOut.new 5 [])] 4 =
        .ok (selInputs [([1], 0, TxOut.new 3 []), ([2], 1, TxOut.new 5 [])] k,
          selValues [([1], 0, TxOut.new 3 []), ([2], 1, TxOut.new 5 [])] k ++
            [(selValues [([1], 0, TxOut.new 3 []), ([2], 1, TxOut.new 5 [])] k).sum - 4]) ∧
      (4 : Int) ≤ (selValues [([1], 0, TxOut.new 3 []), ([2], 1, TxOut.new 5 [])] k).sum ∧
      ∀ j, j < k →
        (selValues [([1], 0, TxOut.new 3 []), ([2], 1, TxOut.new 5 [])] j).sum < 4) :=
  ⟨by decide, c1_selector_exactness [([1], 0, TxOut.new 3 []), ([2], 1, TxOut.new 5 [])] 4
    (by decide)⟩

/-- C2: when the pool's total value (values non-negative per the data model)
is strictly below the required total, selection fails with
`InsufficientFounds`, and `create_transaction` returns no transaction. -/
theorem c2_insufficient_funds (ops : CryptoOps) (targets : List (List Nat × Int))
    (utxo : List (List Nat × Nat × TxOut)) (private_key : List Nat) (fee : Int)
    (p2wpkh : Bool) (hnn : allValuesNonNeg utxo = true)
    (hlt : utxoSum utxo < fee + targetsSum targets) :
    create_txin_list utxo (fee + targetsSum targets) = .error .InsufficientFounds ∧
    returnsTransaction (create_transaction ops targets utxo private_key fee p2wpkh) =
      false := by
  refine ⟨create_txin_list_insufficient utxo _ hnn hlt, ?_⟩
  unfold create_transaction
  split
  · cases hpk : pk_script_from_pubkey ops (ops.pubkeyFromSecret private_key) p2wpkh with
    | none => simp [hpk, returnsTransaction]
    | some pk_script =>
        cases hto : create_txout_list ops targets fee with
        | none => simp [hpk, hto, returnsTransaction]
        | some p =>
            obtain ⟨outs, t⟩ := p
            have ht := create_txout_list_total ops targets fee outs t hto
            subst ht
            simp [hpk, hto, create_txin_list_insufficient utxo _ hnn hlt,
              returnsTransaction]
  · simp [returnsTransaction]

/-- Witness for C2: the empty pool cannot cover a fee of 5, selection fails
with `InsufficientFounds`, and no transaction is returned. -/
theorem c2_insufficient_funds_witness :
    allValuesNonNeg [] = true ∧
    utxoSum [] < 5 + targetsSum [] ∧
    (create_txin_list [] (5 + targetsSum []) = .error .InsufficientFounds ∧
      returnsTransaction
        (create_transaction testOps [] [] (List.replicate 32 0) 5 false) = false) :=
  ⟨by decide, by decide,
    c2_insufficient_funds testOps [] [] (List.replicate 32 0) 5 false (by decide) (by decide)⟩

/-- C3: deriving the locking script from a public key goes through the
derived address: `pk_script_from_pubkey pk w` is definitionally
`pk_script_from_address (address_from_pubkey pk w) w`, for every key and
both witness flags. -/
theorem c3_roundtrip_pubkey_address (ops : CryptoOps) (public_key : List Nat)
    (p2wpkh : Bool) :
    pk_script_from_pubkey ops public_key p2wpkh =
      pk_script_from_address ops (address_from_pubkey ops public_key p2wpkh) p2wpkh :=
  rfl

/-- Counterexample for C4: a wrong-length payload (`"22222222"`, decoding to
6 bytes rather than 25) does not yield an empty hash — `decode_base58`
returns the non-empty middle slice `[11]` and `pk_script_from_address` emits
the template around that 1-byte hash, not around an empty slot.  Likewise a
bad-checksum payload (trailing `[9, 9, 9, 9]` where the checksum under
`testOps` would be `[0, 0, 0, 0]`) decodes to the full 20-byte hash, not to
an empty one. -/
theorem c4_counterexample :
    (bs58_decode [50, 50, 50, 50, 50, 50, 50, 50]).map List.length = some 6 ∧
    decode_base58 [50, 50, 50, 50, 50, 50, 50, 50] = some [11] ∧
    some [11] ≠ some ([] : List Nat) ∧
    pk_script_from_address testOps [50, 50, 50, 50, 50, 50, 50, 50] false =
      some [118, 169, 11, 136, 172] ∧
    pk_script_from_address testOps [50, 50, 50, 50, 50, 50, 50, 50] false ≠
      some (Script.as_bytes (Script.new (some [[0x76], [0xa9], [], [0x88], [0xac]]))) ∧
    (testOps.sha256d ([0x6f] ++ List.replicate 20 7)).take 4 ≠ [9, 9, 9, 9] ∧
    decode_base58 (bs58_encode ([0x6f] ++ List.replicate 20 7 ++ [9, 9, 9, 9])) =
      some (List.replicate 20 7) := by
  decide

/-- C4 as amended: decoding yields an empty hash, rather than an error, in
exactly two cases — the payload fails base58 decoding outright (a character
outside the alphabet), or it base58-decodes to exactly 5 bytes, making the
slice `combined[1 .. len - 4]` empty — and whenever the hash is empty,
`pk_script_from_address` emits the legacy template around the empty slot.
Payloads with a bad checksum or any other wrong decoded length (6 bytes and
up) are not detected: the unvalidated middle slice is returned as the hash;
decoded lengths below 5 panic (claim C9). -/
theorem c4_amended_empty_hash_characterization (ops : CryptoOps) (address : List Nat) :
    (decode_base58 address = some [] ↔
      bs58_decode address = none ∨
        (bs58_decode address).map List.length = some 5) ∧
    (decode_base58 address = some [] →
      pk_script_from_address ops address false =
        some (Script.as_bytes (Script.new (some [[0x76], [0xa9], [], [0x88], [0xac]])))) := by
  refine ⟨?_, ?_⟩
  · cases hb : bs58_decode address with
    | none => simp [decode_base58, hb]
    | some combined =>
        simp only [decode_base58, hb, Option.map, Option.some.injEq,
          reduceCtorEq, false_or]
        by_cases hlen : 5 ≤ combined.length
        · rw [if_pos hlen]
          simp only [Option.some.injEq]
          constructor
          · intro h
            have hl := congrArg List.length h
            simp only [List.length_take, List.length_drop, List.length_nil] at hl
            omega
          · intro h
            simp [h]
        · rw [if_neg hlen]
          simp only [reduceCtorEq, false_iff]
          omega
  · intro h
    simp [pk_script_from_address, h]

/-- Witness for the amended C4 at the address `"7YXq9H"`, which base58-decodes
successfully to exactly 5 bytes: the hash is empty without any decode
failure, and the script is the template around the empty slot. -/
theorem c4_amended_witness :
    (bs58_decode [55, 89, 88, 113, 57, 72]).map List.length = some 5 ∧
    decode_base58 [55, 89, 88, 113, 57, 72] = some [] ∧
    pk_script_from_address testOps [55, 89, 88, 113, 57, 72] false =
      some (Script.as_bytes (Script.new (some [[0x76], [0xa9], [], [0x88], [0xac]]))) := by
  have h5 : (bs58_decode [55, 89, 88, 113, 57, 72]).map List.length = some 5 := by
    decide
  have hdec :=
    (c4_amended_empty_hash_characterization testOps [55, 89, 88, 113, 57, 72]).1.mpr
      (Or.inr h5)
  exact ⟨h5, hdec,
    (c4_amended_empty_hash_characterization testOps [55, 89, 88, 113, 57, 72]).2 hdec⟩

/-- C5: `create_transaction` validates the private key first: whenever the
key bytes are not a valid secret scalar it returns the `PrivateKey` error,
whatever the targets, pool, fee and script family — in particular before and
regardless of selection, assembly or signing — and no transaction is
returned. -/
theorem c5_private_key_validated_up_front (ops : CryptoOps)
    (targets : List (List Nat × Int)) (utxo : List (List Nat × Nat × TxOut))
    (private_key : List Nat) (fee : Int) (p2wpkh : Bool)
    (hbad : ops.secretKeyValid private_key = false) :
    create_transaction ops targets utxo private_key fee p2wpkh =
      some (.error .PrivateKey) ∧
    returnsTransaction (create_transaction ops targets utxo private_key fee p2wpkh) =
      false := by
  have h : create_transaction ops targets utxo private_key fee p2wpkh =
      some (.error .PrivateKey) := by
    unfold create_transaction
    rw [hbad]
    simp
  exact ⟨h, by rw [h]; rfl⟩

/-- Witness for C5: the empty key is invalid for `testOps` (length 0 ≠ 32),
and `create_transaction` fails with `PrivateKey` even though the (empty)
pool would also be insufficient. -/
theorem c5_private_key_witness :
    testOps.secretKeyValid [] = false ∧
    (create_transaction testOps [] [] [] 0 false = some (.error .PrivateKey) ∧
      returnsTransaction (create_transaction testOps [] [] [] 0 false) = false) :=
  ⟨by decide, c5_private_key_validated_up_front testOps [] [] [] 0 false (by decide)⟩

/-- C8: an address that fails witness-program decoding is treated as legacy
even when `p2wpkh = true`: the segwit call falls through to base58 decoding
and agrees with the legacy call on the same address. -/
theorem c8_non_bech32_treated_as_legacy (ops : CryptoOps) (address : List Nat)
    (hfail : ops.witnessFromAddress address = none) :
    pk_script_from_address ops address true =
      pk_script_from_address ops address false := by
  simp [pk_script_from_address, hfail]

/-- Witness for C8: under `testOps` every address fails witness-program
decoding; on a concrete base58 address the segwit and legacy calls agree. -/
theorem c8_non_bech32_witness :
    testOps.witnessFromAddress [50, 50, 50, 50, 50, 50, 50, 50] = none ∧
    pk_script_from_address testOps [50, 50, 50, 50, 50, 50, 50, 50] true =
      pk_script_from_address testOps [50, 50, 50, 50, 50, 50, 50, 50] false :=
  ⟨rfl, c8_non_bech32_treated_as_legacy testOps [50, 50, 50, 50, 50, 50, 50, 50] rfl⟩

/-- C9: `pk_script_from_address` is not total: the empty address and the
one-character address `"1"` base58-decode successfully to fewer than 5
bytes, the slice `combined[1 .. len - 4]` is then out of bounds, and the
operation panics (modelled as `none`) instead of returning a script. -/
theorem c9_short_decode_panics (ops : CryptoOps) :
    bs58_decode [] = some [] ∧
    decode_base58 [] = none ∧
    bs58_decode [49] = some [0] ∧
    decode_base58 [49] = none ∧
    pk_script_from_address ops [] false = none ∧
    pk_script_from_address ops [49] false = none :=
  ⟨by decide, by decide, by decide, by decide, rfl, rfl⟩

/-- C7: every successful `create_transaction` run appends one change output
as the last transaction output — unconditionally, zero change included —
locking to the sender's own derived script, with value equal to the
accumulated input value minus the required total (targets sum plus fee). -/
theorem c7_change_output_always_appended (ops : CryptoOps)
    (targets : List (List Nat × Int)) (utxo : List (List Nat × Nat × TxOut))
    (private_key : List Nat) (fee : Int) (p2wpkh : Bool) (tx : Transaction)
    (hok : create_transaction ops targets utxo private_key fee p2wpkh =
      some (.ok tx)) :
    ∃ pk_script outs txins amounts change,
      pk_script_from_pubkey ops (ops.pubkeyFromSecret private_key) p2wpkh =
        some pk_script ∧
      create_txout_list ops targets fee = some (outs, fee + targetsSum targets) ∧
      create_txin_list utxo (fee + targetsSum targets) = .ok (txins, amounts) ∧
      amounts.getLast? = some change ∧
      change = amounts.dropLast.sum - (fee + targetsSum targets) ∧
      tx.tx_out_list = outs ++ [TxOut.new change pk_script] := by
  unfold create_transaction at hok
  split at hok
  case isFalse => simp at hok
  case isTrue hval =>
    dsimp only [] at hok
    cases hpk : pk_script_from_pubkey ops (ops.pubkeyFromSecret private_key) p2wpkh with
    | none => rw [hpk] at hok; simp at hok
    | some pk_script =>
        rw [hpk] at hok
        dsimp only [] at hok
        cases hto : create_txout_list ops targets fee with
        | none => rw [hto] at hok; simp at hok
        | some p =>
            obtain ⟨outs, t⟩ := p
            rw [hto] at hok
            dsimp only [] at hok
            have ht := create_txout_list_total ops targets fee outs t hto
            subst ht
            cases hti : create_txin_list utxo (fee + targetsSum targets) with
            | error e => rw [hti] at hok; simp at hok
            | ok q =>
                obtain ⟨txins, amounts⟩ := q
                rw [hti] at hok
                dsimp only [] at hok
                obtain ⟨k, hk, hTI, hAM, hle, hmin⟩ :=
                  create_txin_list_ok_char utxo _ txins amounts hti
                have hlast : amounts.getLast? =
                    some ((selValues utxo k).sum - (fee + targetsSum targets)) := by
                  rw [hAM]
                  simp
                have hdrop : amounts.dropLast = selValues utxo k := by
                  rw [hAM]
                  simp
                rw [hlast] at hok
                simp only [Option.some.injEq, Except.ok.injEq] at hok
                refine ⟨pk_script, outs, txins, amounts,
                  (selValues utxo k).sum - (fee + targetsSum targets),
                  rfl, rfl, rfl, hlast, ?_, ?_⟩
                · rw [hdrop]
                · rw [← hok, sign_transaction_tx_out]
                  rfl

/-- Witness for C7 at a concrete successful run whose change is zero: the
single selected input has value 5, the required total is exactly 5, and the
change output `TxOut.new 0 pk_script` is still appended as the last output. -/
theorem c7_change_output_witness :
    ∃ tx,
      create_transaction testOps [] [([1], 0, TxOut.new 5 [])]
          (List.replicate 32 0) 5 false = some (.ok tx) ∧
      ∃ pk_script outs txins amounts change,
        pk_script_from_pubkey testOps
            (testOps.pubkeyFromSecret (List.replicate 32 0)) false = some pk_script ∧
        create_txout_list testOps [] 5 = some (outs, 5 + targetsSum []) ∧
        create_txin_list [([1], 0, TxOut.new 5 [])] (5 + targetsSum []) =
          .ok (txins, amounts) ∧
        amounts.getLast? = some change ∧
        change = amounts.dropLast.sum - (5 + targetsSum []) ∧
        tx.tx_out_list = outs ++ [TxOut.new change pk_script] :=
  ⟨_, rfl, c7_change_output_always_appended testOps [] [([1], 0, TxOut.new 5 [])]
    (List.replicate 32 0) 5 false _ rfl⟩

/-- C6: with every lock acquisition succeeding, the ingestion worker applies
each delivered block first to the UTXO index and then to the ledger,
strictly in the FIFO order of the channel (the final UTXO state is the left
fold of `update` over the blocks and the ledger is extended by exactly the
delivered blocks in order), while the event trace shows, per block, the UTXO
lock acquired before the ledger lock, the UTXO update before the ledger
append, and the releases after; the recursion consumes the whole finite
channel content, so the worker terminates once the channel is closed and
drained. -/
theorem c6_ingestion_fifo_order {Block U : Type} (update : U → Block → U)
    (blocks : List Block) (utxo : U) (blockchain : List Block) :
    download_blocks update (List.replicate blocks.length (true, true)) blocks
        utxo blockchain =
      (blocks.foldl update utxo, blockchain ++ blocks,
        (blocks.map (fun b =>
          ([.lockUtxo, .lockChain, .updateUtxo b, .addBlock b, .releaseChain,
            .releaseUtxo] : List (IngestEvent Block)))).flatten) := by
  induction blocks generalizing utxo blockchain with
  | nil => simp [download_blocks]
  | cons b rest ih =>
      simp [download_blocks, List.replicate_succ, ih]

/-- C10: for every sequence of lock-acquisition outcomes, the UTXO index and
the ledger receive exactly the same blocks — those of iterations that
acquired both locks — so a failed acquisition of either lock leaves both
structures untouched for that block, and the ledger grows by exactly the
number of blocks applied to the UTXO index. -/
theorem c10_atomic_joint_update {Block U : Type} (update : U → Block → U)
    (locks : List (Bool × Bool)) (blocks : List Block) (utxo : U)
    (blockchain : List Block) :
    (download_blocks update locks blocks utxo blockchain).1 =
        (applied_blocks locks blocks).foldl update utxo ∧
    (download_blocks update locks blocks utxo blockchain).2.1 =
        blockchain ++ applied_blocks locks blocks ∧
    (download_blocks update locks blocks utxo blockchain).2.1.length =
        blockchain.length + (applied_blocks locks blocks).length := by
  induction blocks generalizing locks utxo blockchain with
  | nil => simp [download_blocks, applied_blocks]
  | cons b rest ih =>
      by_cases h1 : (locks.head?.getD (true, true)).1 = true
      · by_cases h2 : (locks.head?.getD (true, true)).2 = true
        · have hrec := ih locks.tail (update utxo b) (blockchain ++ [b])
          refine ⟨?_, ?_, ?_⟩ <;>
            simp [download_blocks, applied_blocks, h1, h2, hrec.1, hrec.2.1]
        · have hrec := ih locks.tail utxo blockchain
          refine ⟨?_, ?_, ?_⟩ <;>
            simp [download_blocks, applied_blocks, h1, h2, hrec.1, hrec.2.1]
      · have hrec := ih locks.tail utxo blockchain
        refine ⟨?_, ?_, ?_⟩ <;>
          simp [download_blocks, applied_blocks, h1, hrec.1, hrec.2.1]

end BitcoinNode
